import Mathlib

/-!
Verification of the lassim optimization-pipeline core.

The definitions below are a shallow embedding of the Python sources:

* `source/customs/core_functions.py`
  (`default_bounds`, `generate_reactions_vector`, `remove_lowest_reaction`,
  `iter_function`)
* `source/core/core_system.py` (`CoreSystem.__reactions_from_network`)
* `source/core/base_optimization.py`
  (`BaseOptimization.solve`, `BaseOptimization._generate_solution`,
  `BaseOptimization._get_solutions`)
* `source/core/base_solution.py` (`BaseSolution`, ordering by cost,
  `reactions_ids` property)
* `source/core/solutions/core_solution.py` (`CoreSolution.get_solution_matrix`)
* `source/core/problems/core_problem.py` (`CoreProblem._objfun_impl`,
  `CoreProblemFactory.build`)

A reaction map (`SortedDict` from transcription-factor id `0..n-1` to a
`SortedSet` of regulator ids) is embedded as a list of lists: position `i`
of the outer list holds the iteration-ordered element list of the set bound
to key `i`.  Machine floats are embedded as rationals where only finite
values arise; the cost evaluation of `CoreProblem._objfun_impl`, where
IEEE-754 non-finite values matter, uses the four-constructor float model
`FV` further below.
-/

namespace Lassim

/-- A reaction map with keys `0..n-1`: entry `i` is the iteration-ordered
list of regulator ids of transcription factor `i`. -/
abbrev RM := List (List ℕ)

/-- Total number of reactions (edges) in a reaction map. -/
def totalEdges (rm : RM) : ℕ := (rm.map List.length).sum

/-- Well-formedness of a reaction map as produced by `SortedSet`s over ids:
every per-node regulator list is strictly sorted (hence duplicate-free) and
all its ids are valid node ids (below the number of keys). -/
def WF (rm : RM) : Prop :=
  ∀ s ∈ rm, List.Pairwise (· < ·) s ∧ ∀ t ∈ s, t < rm.length

/-- `default_bounds` from `source/customs/core_functions.py`: lower bounds
are `0` for the `2·n` lambda/vmax slots followed by `-20` per reaction,
upper bounds are `20` everywhere. -/
def default_bounds (num_tfacts num_react : ℕ) : List ℚ × List ℚ :=
  (List.replicate (num_tfacts * 2) 0 ++ List.replicate num_react (-20),
   List.replicate (num_tfacts * 2 + num_react) 20)

/-- The row written by `vector = np.zeros(n); vector[reactions] = -1` in
`generate_reactions_vector`: position `j` holds `-1` iff `j` is in the
node's regulator set, `0` otherwise. -/
def reactionRow (n : ℕ) (s : List ℕ) : List ℚ :=
  (List.range n).map (fun j => if j ∈ s then (-1 : ℚ) else 0)

/-- `generate_reactions_vector` from `source/customs/core_functions.py`:
the flattened `n²` reaction vector (`-1` marks a present edge) and its
boolean mask `np_reacts < 0`. -/
def generate_reactions_vector (rm : RM) : List ℚ × List Bool :=
  let flat := (rm.map (reactionRow rm.length)).flatten
  (flat, flat.map (fun v => decide (v < 0)))

/-- The linear scan of `np.argmin`: carry the best index `bi`, best value
`bv` and the current position `i`; a strictly smaller element replaces the
best, so ties keep the earliest index. -/
def argminAux : ℕ → ℚ → ℕ → List ℚ → ℕ
  | bi, _, _, [] => bi
  | bi, bv, i, x :: xs =>
    if x < bv then argminAux i x (i + 1) xs else argminAux bi bv (i + 1) xs

/-- `np.argmin`: index of the first occurrence of the minimum of a list
(`0` on the empty list, on which numpy would raise instead). -/
def argminIdx : List ℚ → ℕ
  | [] => 0
  | x :: xs => argminAux 0 x 1 xs

/-- Structural characterisation of the first-minimum index, used to reason
about `argminIdx`. -/
def argminSpec : List ℚ → ℕ
  | [] => 0
  | x :: xs =>
    if xs = [] then 0
    else if x ≤ xs.getD (argminSpec xs) 0 then 0 else argminSpec xs + 1

/-- The index-search loop of `remove_lowest_reaction`: walk the nodes
accumulating regulator counts until the node containing flat position `j`
is found, and pop the regulator at the local offset; `none` embeds the
`IndexError` raised when the loop falls through. -/
def removeFromCount : RM → ℕ → Option RM
  | [], _ => none
  | s :: rest, j =>
    if j < s.length then some (s.eraseIdx j :: rest)
    else (removeFromCount rest (j - s.length)).map (s :: ·)

/-- `remove_lowest_reaction` from `source/customs/core_functions.py`:
drop the `2·n` lambda/vmax slots, find the first index of minimal `|k|`
among the reaction slots, delete that slot from the vector and pop the
corresponding regulator from (a deep copy of) the reaction map. -/
def remove_lowest_reaction (vres : List ℚ) (rm : RM) : Option (List ℚ × RM) :=
  let n := rm.length
  let kValues := vres.drop (2 * n)
  let j := argminIdx (kValues.map (|·|))
  (removeFromCount rm j).map (fun rm' => (vres.eraseIdx (2 * n + j), rm'))

/-- Node-then-edge enumeration of the reactions of a map: the pairs
`(node, regulator)` in the order the flattened reaction slots are laid
out in the decision vector. -/
def edgeList : RM → List (ℕ × ℕ)
  | [] => []
  | s :: rest => s.map (fun t => (0, t)) ++ (edgeList rest).map (fun p => (p.1 + 1, p.2))

theorem edgeList_length (rm : RM) : (edgeList rm).length = totalEdges rm := by
  induction rm with
  | nil => rfl
  | cons s rest ih => simp [edgeList, totalEdges] at ih ⊢; omega

theorem map_eraseIdx {α β : Type} (f : α → β) (l : List α) (j : ℕ) :
    (l.eraseIdx j).map f = (l.map f).eraseIdx j := by
  induction l generalizing j with
  | nil => rfl
  | cons x xs ih =>
    cases j with
    | zero => rfl
    | succ j => simp [List.eraseIdx, ih]

theorem argminSpec_cons (x : ℚ) (xs : List ℚ) :
    argminSpec (x :: xs) =
      if xs = [] then 0
      else if x ≤ xs.getD (argminSpec xs) 0 then 0 else argminSpec xs + 1 := by
  rfl

theorem argminSpec_lt_length (l : List ℚ) (h : l ≠ []) : argminSpec l < l.length := by
  induction l with
  | nil => simp at h
  | cons x xs ih =>
    rw [argminSpec_cons]
    by_cases hxs : xs = []
    · rw [if_pos hxs]; simp
    · rw [if_neg hxs]
      have := ih hxs
      by_cases hle : x ≤ xs.getD (argminSpec xs) 0
      · rw [if_pos hle]; simp
      · rw [if_neg hle]; simp only [List.length_cons]; omega

theorem argminSpec_le (l : List ℚ) :
    ∀ k < l.length, l.getD (argminSpec l) 0 ≤ l.getD k 0 := by
  induction l with
  | nil => intro k hk; simp at hk
  | cons x xs ih =>
    intro k hk
    rw [argminSpec_cons]
    by_cases hxs : xs = []
    · subst hxs
      simp only [List.length_cons, List.length_nil] at hk
      rw [if_pos rfl]
      have : k = 0 := by omega
      subst this; rfl
    · rw [if_neg hxs]
      by_cases hle : x ≤ xs.getD (argminSpec xs) 0
      · rw [if_pos hle, List.getD_cons_zero]
        cases k with
        | zero => rfl
        | succ k =>
          rw [List.getD_cons_succ]
          exact le_trans hle (ih k (by simpa using hk))
      · rw [if_neg hle, List.getD_cons_succ]
        cases k with
        | zero => rw [List.getD_cons_zero]; exact le_of_lt (lt_of_not_le hle)
        | succ k => rw [List.getD_cons_succ]; exact ih k (by simpa using hk)

theorem argminSpec_first (l : List ℚ) :
    ∀ k < argminSpec l, l.getD (argminSpec l) 0 < l.getD k 0 := by
  induction l with
  | nil => intro k hk; simp [argminSpec] at hk
  | cons x xs ih =>
    intro k hk
    rw [argminSpec_cons] at hk ⊢
    by_cases hxs : xs = []
    · rw [if_pos hxs] at hk; omega
    · rw [if_neg hxs] at hk ⊢
      by_cases hle : x ≤ xs.getD (argminSpec xs) 0
      · rw [if_pos hle] at hk; omega
      · rw [if_neg hle] at hk ⊢
        rw [List.getD_cons_succ]
        cases k with
        | zero => rw [List.getD_cons_zero]; exact lt_of_not_le hle
        | succ k => rw [List.getD_cons_succ]; exact ih k (by omega)

theorem argminAux_of_le (xs : List ℚ) :
    ∀ bi bv i, (∀ y ∈ xs, bv ≤ y) → argminAux bi bv i xs = bi := by
  induction xs with
  | nil => intro bi bv i _; rfl
  | cons x xs ih =>
    intro bi bv i h
    have hx : bv ≤ x := h x (by simp)
    rw [argminAux, if_neg (not_lt.2 hx)]
    exact ih bi bv (i + 1) (fun y hy => h y (by simp [hy]))

theorem argminAux_of_lt (xs : List ℚ) :
    ∀ bi bv i, (∃ y ∈ xs, y < bv) → argminAux bi bv i xs = i + argminSpec xs := by
  induction xs with
  | nil => intro bi bv i h; simp at h
  | cons x xs ih =>
    intro bi bv i h
    have hne : xs = [] → ∃ y ∈ (x :: xs), y < bv := fun _ => h
    rw [argminAux, argminSpec_cons]
    by_cases hx : x < bv
    · rw [if_pos hx]
      by_cases hall : ∀ y ∈ xs, x ≤ y
      · have hxs0 : argminAux i x (i + 1) xs = i := argminAux_of_le xs i x (i + 1) hall
        by_cases hxs : xs = []
        · rw [if_pos hxs, hxs0]; omega
        · rw [if_neg hxs]
          have hmem : xs.getD (argminSpec xs) 0 ∈ xs := by
            rw [List.getD_eq_getElem xs 0 (argminSpec_lt_length xs hxs)]
            exact List.getElem_mem _
          rw [if_pos (hall _ hmem), hxs0]; omega
      · push_neg at hall
        obtain ⟨y, hy, hylt⟩ := hall
        have hxs : xs ≠ [] := by rintro rfl; simp at hy
        rw [ih i x (i + 1) ⟨y, hy, hylt⟩, if_neg hxs]
        have hmin : xs.getD (argminSpec xs) 0 ≤ y := by
          obtain ⟨k, hk, rfl⟩ := List.getElem_of_mem hy
          rw [← List.getD_eq_getElem xs 0 hk]
          exact argminSpec_le xs k hk
        rw [if_neg (not_le.2 (lt_of_le_of_lt hmin hylt))]
        omega
    · rw [if_neg hx]
      obtain ⟨y, hy, hylt⟩ := h
      have hyxs : y ∈ xs := by
        rcases List.mem_cons.1 hy with rfl | hmem
        · exact absurd hylt hx
        · exact hmem
      have hxs : xs ≠ [] := by rintro rfl; simp at hyxs
      rw [ih bi bv (i + 1) ⟨y, hyxs, hylt⟩, if_neg hxs]
      have hmin : xs.getD (argminSpec xs) 0 ≤ y := by
        obtain ⟨k, hk, rfl⟩ := List.getElem_of_mem hyxs
        rw [← List.getD_eq_getElem xs 0 hk]
        exact argminSpec_le xs k hk
      have hxbv : bv ≤ x := not_lt.1 hx
      rw [if_neg (not_le.2 (lt_of_le_of_lt hmin (lt_of_lt_of_le hylt hxbv)))]
      omega

/-- The `np.argmin` scan computes exactly the first-minimum index. -/
theorem argminIdx_eq_spec (l : List ℚ) : argminIdx l = argminSpec l := by
  cases l with
  | nil => rfl
  | cons x xs =>
    rw [argminIdx, argminSpec_cons]
    by_cases hall : ∀ y ∈ xs, x ≤ y
    · rw [argminAux_of_le xs 0 x 1 hall]
      by_cases hxs : xs = []
      · rw [if_pos hxs]
      · rw [if_neg hxs]
        have hmem : xs.getD (argminSpec xs) 0 ∈ xs := by
          rw [List.getD_eq_getElem xs 0 (argminSpec_lt_length xs hxs)]
          exact List.getElem_mem _
        rw [if_pos (hall _ hmem)]
    · push_neg at hall
      obtain ⟨y, hy, hylt⟩ := hall
      have hxs : xs ≠ [] := by rintro rfl; simp at hy
      rw [argminAux_of_lt xs 0 x 1 ⟨y, hy, hylt⟩, if_neg hxs]
      have hmin : xs.getD (argminSpec xs) 0 ≤ y := by
        obtain ⟨k, hk, rfl⟩ := List.getElem_of_mem hy
        rw [← List.getD_eq_getElem xs 0 hk]
        exact argminSpec_le xs k hk
      rw [if_neg (not_le.2 (lt_of_le_of_lt hmin hylt))]
      omega

theorem argminIdx_lt_length (l : List ℚ) (h : l ≠ []) : argminIdx l < l.length := by
  rw [argminIdx_eq_spec]; exact argminSpec_lt_length l h

theorem argminIdx_le (l : List ℚ) :
    ∀ k < l.length, l.getD (argminIdx l) 0 ≤ l.getD k 0 := by
  rw [argminIdx_eq_spec]; exact argminSpec_le l

theorem argminIdx_first (l : List ℚ) :
    ∀ k < argminIdx l, l.getD (argminIdx l) 0 < l.getD k 0 := by
  rw [argminIdx_eq_spec]; exact argminSpec_first l

/-- Success and effect of the index-search loop of `remove_lowest_reaction`:
for every in-range flat index `j` it pops exactly the `j`-th reaction in
node-then-edge order, keeping the keys and reducing the edge count by one,
and every per-node list of the result is a sublist of the original one. -/
theorem removeFromCount_spec (rm : RM) (j : ℕ) (hj : j < totalEdges rm) :
    ∃ rm', removeFromCount rm j = some rm' ∧
      edgeList rm' = (edgeList rm).eraseIdx j ∧
      rm'.length = rm.length ∧
      totalEdges rm' + 1 = totalEdges rm ∧
      List.Forall₂ List.Sublist rm' rm := by
  induction rm generalizing j with
  | nil => simp [totalEdges] at hj
  | cons s rest ih =>
    have htot : totalEdges (s :: rest) = s.length + totalEdges rest := by
      simp [totalEdges]
    by_cases hlt : j < s.length
    · refine ⟨s.eraseIdx j :: rest, ?_, ?_, ?_, ?_, ?_⟩
      · simp [removeFromCount, hlt]
      · have hmaplen : j < (s.map (fun t => ((0 : ℕ), t))).length := by
          simpa using hlt
        rw [edgeList, edgeList, List.eraseIdx_append_of_lt_length hmaplen,
          map_eraseIdx]
      · simp
      · have := List.length_eraseIdx_of_lt hlt
        simp [totalEdges] at htot ⊢; omega
      · exact List.Forall₂.cons (List.eraseIdx_sublist s j)
          (List.forall₂_same.2 (fun x _ => List.Sublist.refl x))
    · push_neg at hlt
      have hj' : j - s.length < totalEdges rest := by omega
      obtain ⟨rest', h1, h2, h3, h4, h5⟩ := ih (j - s.length) hj'
      refine ⟨s :: rest', ?_, ?_, ?_, ?_, ?_⟩
      · simp [removeFromCount, Nat.not_lt.2 hlt, h1]
      · have hmaplen : (s.map (fun t => ((0 : ℕ), t))).length ≤ j := by
          simpa using hlt
        rw [edgeList, edgeList, List.eraseIdx_append_of_length_le hmaplen, h2,
          map_eraseIdx]
        simp
      · simpa using h3
      · simp [totalEdges] at h4 ⊢; omega
      · exact List.Forall₂.cons (List.Sublist.refl s) h5

/-- C1: for every solution vector and reaction map with at least one edge
(and the vector dimensionally consistent with the map),
`remove_lowest_reaction` succeeds and removes exactly the edge at the first
index of minimal `|weight|` in node-then-edge order — the returned vector
has that slot deleted, the returned map has that edge struck, the chosen
slot is a global minimum of `|weight|`, and every earlier slot is strictly
larger; in particular, on the vector ending in
`[-1, 2, 3, -4, 1, 0.5, 6, 0.5, -11]` with reactions
`{0:{2}, 1:{0,2,3}, 2:{0,1,2,3}, 3:{0}}` the first occurrence of `0.5`
(flat edge index 5, i.e. regulator `1` of node `2`) is struck. -/
theorem remove_lowest_reaction_first_min :
    (∀ (vres : List ℚ) (rm : RM),
        1 ≤ totalEdges rm →
        vres.length = 2 * rm.length + totalEdges rm →
        ∃ rm',
          remove_lowest_reaction vres rm =
            some (vres.eraseIdx
                (2 * rm.length +
                  argminIdx ((vres.drop (2 * rm.length)).map (|·|))), rm') ∧
          edgeList rm' =
            (edgeList rm).eraseIdx
              (argminIdx ((vres.drop (2 * rm.length)).map (|·|))) ∧
          (∀ k < totalEdges rm,
            ((vres.drop (2 * rm.length)).map (|·|)).getD
                (argminIdx ((vres.drop (2 * rm.length)).map (|·|))) 0 ≤
              ((vres.drop (2 * rm.length)).map (|·|)).getD k 0) ∧
          (∀ k < argminIdx ((vres.drop (2 * rm.length)).map (|·|)),
            ((vres.drop (2 * rm.length)).map (|·|)).getD
                (argminIdx ((vres.drop (2 * rm.length)).map (|·|))) 0 <
              ((vres.drop (2 * rm.length)).map (|·|)).getD k 0)) ∧
    remove_lowest_reaction
        [0, 0, 0, 0, 0, 0, 0, 0, -1, 2, 3, -4, 1, 1/2, 6, 1/2, -11]
        [[2], [0, 2, 3], [0, 1, 2, 3], [0]] =
      some ([0, 0, 0, 0, 0, 0, 0, 0, -1, 2, 3, -4, 1, 6, 1/2, -11],
        [[2], [0, 2, 3], [0, 2, 3], [0]]) := by
  constructor
  · intro vres rm hE hlen
    set kabs := (vres.drop (2 * rm.length)).map (|·|) with hkabs
    have hkl : kabs.length = totalEdges rm := by
      rw [hkabs]; simp [List.length_drop, hlen]
    have hne : kabs ≠ [] := by
      intro h0; rw [h0] at hkl; simp at hkl; omega
    have hjlt : argminIdx kabs < totalEdges rm := by
      rw [← hkl]; exact argminIdx_lt_length kabs hne
    obtain ⟨rm', h1, h2, _, _, _⟩ := removeFromCount_spec rm (argminIdx kabs) hjlt
    refine ⟨rm', ?_, h2, ?_, ?_⟩
    · simp only [remove_lowest_reaction, ← hkabs, h1, Option.map]
    · intro k hk; exact argminIdx_le kabs k (by omega)
    · intro k hk; exact argminIdx_first kabs k hk
  · have habs :
        (([0, 0, 0, 0, 0, 0, 0, 0, -1, 2, 3, -4, 1, 1/2, 6, 1/2, -11] :
            List ℚ).drop 8).map (|·|) = [1, 2, 3, 4, 1, 1/2, 6, 1/2, 11] := by
      norm_num
    have hmin : argminIdx [1, 2, 3, 4, 1, 1/2, 6, 1/2, 11] = 5 := by
      norm_num [argminIdx, argminAux]
    have hhalf : |(1/2 : ℚ)| = 1/2 := by norm_num
    norm_num [remove_lowest_reaction, habs, hhalf, hmin, removeFromCount,
      List.eraseIdx]

/-- Witness for C1: the general statement applied to the concrete scenario
vector and reaction map of the claim. -/
theorem remove_lowest_reaction_first_min_witness :
    ∃ rm',
      remove_lowest_reaction
          [0, 0, 0, 0, 0, 0, 0, 0, -1, 2, 3, -4, 1, 1/2, 6, 1/2, -11]
          [[2], [0, 2, 3], [0, 1, 2, 3], [0]] =
        some (([0, 0, 0, 0, 0, 0, 0, 0, -1, 2, 3, -4, 1, 1/2, 6, 1/2, -11] :
              List ℚ).eraseIdx
            (2 * 4 +
              argminIdx ((([0, 0, 0, 0, 0, 0, 0, 0, -1, 2, 3, -4, 1, 1/2, 6,
                  1/2, -11] : List ℚ).drop (2 * 4)).map (|·|))), rm') ∧
      edgeList rm' =
        (edgeList [[2], [0, 2, 3], [0, 1, 2, 3], [0]]).eraseIdx
          (argminIdx ((([0, 0, 0, 0, 0, 0, 0, 0, -1, 2, 3, -4, 1, 1/2, 6,
              1/2, -11] : List ℚ).drop (2 * 4)).map (|·|))) := by
  obtain ⟨rm', h1, h2, _, _⟩ :=
    remove_lowest_reaction_first_min.1
      [0, 0, 0, 0, 0, 0, 0, 0, -1, 2, 3, -4, 1, 1/2, 6, 1/2, -11]
      [[2], [0, 2, 3], [0, 1, 2, 3], [0]]
      (by norm_num [totalEdges]) (by norm_num [totalEdges])
  exact ⟨rm', h1, h2⟩

theorem reactionRow_length (n : ℕ) (s : List ℕ) : (reactionRow n s).length = n := by
  simp [reactionRow]

theorem list_eq_map_range {α : Type} (l : List α) (d : α) :
    (List.range l.length).map (fun i => l.getD i d) = l := by
  apply List.ext_getElem
  · simp
  · intro i h1 h2
    rw [List.getElem_map, List.getElem_range, List.getD_eq_getElem l d h2]

theorem flatten_getD {α : Type} (rows : List (List α)) (n : ℕ)
    (h : ∀ r ∈ rows, r.length = n) (i j : ℕ) (hi : i < rows.length) (hj : j < n)
    (d : α) :
    rows.flatten.getD (i * n + j) d = (rows.getD i []).getD j d := by
  induction rows generalizing i with
  | nil => simp at hi
  | cons r rest ih =>
    have hr : r.length = n := h r (by simp)
    cases i with
    | zero =>
      rw [List.flatten_cons, Nat.zero_mul, Nat.zero_add,
        List.getD_append _ _ _ _ (by omega), List.getD_cons_zero]
    | succ i =>
      have harith : (i + 1) * n + j = r.length + (i * n + j) := by
        rw [hr]; ring
      rw [List.flatten_cons, harith,
        List.getD_append_right _ _ _ _ (by omega), Nat.add_sub_cancel_left,
        List.getD_cons_succ]
      exact ih (fun s hs => h s (by simp [hs])) i (by simpa using hi)

theorem generate_mask_getD (rm : RM) (i j : ℕ) (hi : i < rm.length)
    (hj : j < rm.length) :
    ((generate_reactions_vector rm).2).getD (i * rm.length + j) false =
      decide (j ∈ rm.getD i []) := by
  set n := rm.length with hn
  have hrows : ∀ r ∈ rm.map (reactionRow n), r.length = n := by
    intro r hr
    obtain ⟨s, _, rfl⟩ := List.mem_map.1 hr
    exact reactionRow_length n s
  have hflat :
      (generate_reactions_vector rm).2 =
        ((rm.map (reactionRow n)).map (List.map (fun v => decide (v < 0)))).flatten := by
    simp only [generate_reactions_vector, ← List.map_flatten]
  rw [hflat]
  have hrows' :
      ∀ r ∈ (rm.map (reactionRow n)).map (List.map (fun v => decide (v < 0))),
        r.length = n := by
    intro r hr
    obtain ⟨s, hs, rfl⟩ := List.mem_map.1 hr
    simpa using hrows s hs
  rw [flatten_getD _ n hrows' i j (by simpa using hi) hj]
  have hmap :
      ((rm.map (reactionRow n)).map (List.map (fun v => decide (v < 0)))).getD i [] =
        ((rm.map (reactionRow n)).getD i []).map (fun v => decide (v < 0)) := by
    rw [List.getD_eq_getElem _ _ (by simpa using hi),
      List.getD_eq_getElem _ _ (by simpa using hi), List.getElem_map]
  have hmap2 : (rm.map (reactionRow n)).getD i [] = reactionRow n (rm.getD i []) := by
    rw [List.getD_eq_getElem _ _ (by simpa using hi),
      List.getD_eq_getElem _ _ hi, List.getElem_map]
  rw [hmap, hmap2]
  have hjlen : j < (reactionRow n (rm.getD i [])).length := by
    rw [reactionRow_length]; exact hj
  rw [List.getD_eq_getElem _ _ (by simpa using hjlen),
    List.getElem_map]
  have haux : ∀ (s : List ℕ) (j' : ℕ),
      decide ((if j' ∈ s then (-1 : ℚ) else 0) < 0) = decide (j' ∈ s) := by
    intro s j'
    by_cases hmem : j' ∈ s <;> simp [hmem]
  simp only [reactionRow, List.getElem_map, List.getElem_range]
  exact haux _ _

theorem filter_range_eq (s : List ℕ) (n : ℕ) (hs : List.Pairwise (· < ·) s)
    (hb : ∀ t ∈ s, t < n) :
    (List.range n).filter (fun j => decide (j ∈ s)) = s := by
  have hnodup_s : s.Nodup := hs.imp Nat.ne_of_lt
  have hperm : ((List.range n).filter (fun j => decide (j ∈ s))).Perm s := by
    rw [List.perm_ext_iff_of_nodup
      (List.Nodup.filter _ (List.nodup_range n)) hnodup_s]
    intro a
    simp only [List.mem_filter, List.mem_range, decide_eq_true_eq]
    exact ⟨fun h => h.2, fun h => ⟨hb a h, h⟩⟩
  have hanti : IsAntisymm ℕ (· ≤ ·) := ⟨fun _ _ h1 h2 => le_antisymm h1 h2⟩
  exact @List.eq_of_perm_of_sorted ℕ (· ≤ ·) hanti _ _ hperm
    (((List.sorted_lt_range n).filter _).imp le_of_lt) (hs.imp le_of_lt)

theorem mask_count (rm : RM) (h : WF rm) :
    ((generate_reactions_vector rm).2).count true = totalEdges rm := by
  set n := rm.length with hn
  have hflat :
      (generate_reactions_vector rm).2 =
        (rm.map (fun s => (reactionRow n s).map (fun v => decide (v < 0)))).flatten := by
    simp only [generate_reactions_vector, List.map_flatten, List.map_map,
      Function.comp_def]
  rw [hflat, List.count_flatten, List.map_map]
  have hrow : ∀ s ∈ rm,
      (List.count true ∘ fun s => (reactionRow n s).map (fun v => decide (v < 0))) s =
        s.length := by
    intro s hs
    obtain ⟨hsort, hbound⟩ := h s hs
    simp only [Function.comp_apply, reactionRow, List.map_map]
    rw [List.count_eq_countP, List.countP_map, List.countP_eq_length_filter]
    have hfun :
        (List.range n).filter
            ((fun x => x == true) ∘ (fun v => decide (v < 0)) ∘
              fun j => if j ∈ s then (-1 : ℚ) else 0) =
          (List.range n).filter (fun j => decide (j ∈ s)) := by
      apply List.filter_congr
      intro x _
      by_cases hmem : x ∈ s <;> simp [hmem]
    rw [hfun, filter_range_eq s n hsort hbound]
  rw [List.map_congr_left hrow, totalEdges]

theorem removeFromCount_sublist (rm : RM) (j : ℕ) (rm' : RM)
    (h : removeFromCount rm j = some rm') :
    ∀ s' ∈ rm', ∃ s ∈ rm, s'.Sublist s := by
  induction rm generalizing j rm' with
  | nil => simp [removeFromCount] at h
  | cons s rest ih =>
    by_cases hlt : j < s.length
    · rw [removeFromCount, if_pos hlt] at h
      obtain rfl := Option.some_injective _ h
      intro s' hs'
      rcases List.mem_cons.1 hs' with rfl | hmem
      · exact ⟨s, by simp, List.eraseIdx_sublist s j⟩
      · exact ⟨s', by simp [hmem], List.Sublist.refl s'⟩
    · rw [removeFromCount, if_neg hlt] at h
      cases hrec : removeFromCount rest (j - s.length) with
      | none => rw [hrec] at h; simp at h
      | some rest' =>
        rw [hrec] at h
        simp only [Option.map_some'] at h
        obtain rfl := Option.some_injective _ h
        intro s' hs'
        rcases List.mem_cons.1 hs' with rfl | hmem
        · exact ⟨s', by simp, List.Sublist.refl s'⟩
        · obtain ⟨s0, hs0, hsub⟩ := ih (j - s.length) rest' hrec s' hmem
          exact ⟨s0, by simp [hs0], hsub⟩

/-- Full specification of `remove_lowest_reaction` needed by the iteration
function: success, the returned pieces, preservation of the key set and of
well-formedness, and the edge-count decrement. -/
theorem remove_lowest_reaction_spec (vres : List ℚ) (rm : RM)
    (hE : 1 ≤ totalEdges rm)
    (hlen : vres.length = 2 * rm.length + totalEdges rm) :
    ∃ rm',
      remove_lowest_reaction vres rm =
        some (vres.eraseIdx
            (2 * rm.length +
              argminIdx ((vres.drop (2 * rm.length)).map (|·|))), rm') ∧
      rm'.length = rm.length ∧
      totalEdges rm' + 1 = totalEdges rm ∧
      (WF rm → WF rm') := by
  set kabs := (vres.drop (2 * rm.length)).map (|·|) with hkabs
  have hkl : kabs.length = totalEdges rm := by
    rw [hkabs]; simp [List.length_drop, hlen]
  have hne : kabs ≠ [] := by
    intro h0; rw [h0] at hkl; simp at hkl; omega
  have hjlt : argminIdx kabs < totalEdges rm := by
    rw [← hkl]; exact argminIdx_lt_length kabs hne
  obtain ⟨rm', h1, _, hlen', hcount, _⟩ :=
    removeFromCount_spec rm (argminIdx kabs) hjlt
  refine ⟨rm', ?_, hlen', hcount, ?_⟩
  · simp only [remove_lowest_reaction, ← hkabs, h1, Option.map]
  · intro hwf s' hs'
    obtain ⟨s, hs, hsub⟩ := removeFromCount_sublist rm (argminIdx kabs) rm' h1 s' hs'
    obtain ⟨hsort, hbound⟩ := hwf s hs
    exact ⟨hsort.sublist hsub, fun t ht => hlen' ▸ hbound t (hsub.subset ht)⟩

/-- The immutable problem bundle built by `CoreProblemFactory.build`, as
configured by `iter_function`: dimension, bounds, reaction vector and mask,
and the known-solution seeds. -/
structure ProblemE where
  dim : ℕ
  bounds : List ℚ × List ℚ
  vector_map : List ℚ
  vector_map_mask : List Bool
  known_sol : List (List ℚ)

/-- The parts of a `LassimSolution` read by `iter_function`: the champion's
decision vector, the reaction map of its round and the boolean reaction
mask of its problem. -/
structure SolutionE where
  solution_vector : List ℚ
  reactions_ids : RM
  react_mask : List Bool

/-- `iter_function` from `source/customs/core_functions.py`: if the
solution's reaction mask still marks at least one edge, remove the
lowest-`|weight|` reaction, regenerate vector and mask, and build the next
problem with dimension `2·|keys| + |remaining edges|`, default bounds and
the reduced vector as only known solution; otherwise report that the
iteration stops (the source returns `(None, None, False)`).  A failure of
the removal search (`IndexError` in the source) is `none` as well: the
exception aborts the iteration. -/
def iter_function (sol : SolutionE) : Option (ProblemE × RM) :=
  if 0 < sol.react_mask.count true then
    (remove_lowest_reaction sol.solution_vector sol.reactions_ids).map
      (fun pr =>
        let newPair := generate_reactions_vector pr.2
        let numReact := newPair.2.count true
        ({ dim := pr.2.length * 2 + numReact,
           bounds := default_bounds pr.2.length numReact,
           vector_map := newPair.1,
           vector_map_mask := newPair.2,
           known_sol := [pr.1] }, pr.2))
  else none

/-- C2: in every pruning round that continues (the current best solution's
mask still marks an edge), `iter_function` builds a problem whose dimension
is one less than the current one (the length of the current decision
vector) and equals `2·|nodes| + (|edges| - 1)`, seeded with exactly the
current best vector minus the removed edge's slot. -/
theorem iter_function_reduces_dimension (sol : SolutionE)
    (hwf : WF sol.reactions_ids)
    (hmask : sol.react_mask = (generate_reactions_vector sol.reactions_ids).2)
    (hE : 1 ≤ totalEdges sol.reactions_ids)
    (hlen : sol.solution_vector.length =
      2 * sol.reactions_ids.length + totalEdges sol.reactions_ids) :
    ∃ p rm', iter_function sol = some (p, rm') ∧
      p.dim + 1 = sol.solution_vector.length ∧
      p.dim = 2 * sol.reactions_ids.length + (totalEdges sol.reactions_ids - 1) ∧
      p.known_sol = [sol.solution_vector.eraseIdx
        (2 * sol.reactions_ids.length +
          argminIdx ((sol.solution_vector.drop
            (2 * sol.reactions_ids.length)).map (|·|)))] := by
  obtain ⟨rm', h1, hlen', hcount, hwf'⟩ :=
    remove_lowest_reaction_spec sol.solution_vector sol.reactions_ids hE hlen
  have hpos : 0 < sol.react_mask.count true := by
    rw [hmask, mask_count sol.reactions_ids hwf]; omega
  have hcount' : ((generate_reactions_vector rm').2).count true =
      totalEdges sol.reactions_ids - 1 := by
    rw [mask_count rm' (hwf' hwf)]; omega
  refine ⟨⟨rm'.length * 2 + ((generate_reactions_vector rm').2).count true,
      default_bounds rm'.length (((generate_reactions_vector rm').2).count true),
      (generate_reactions_vector rm').1, (generate_reactions_vector rm').2,
      [sol.solution_vector.eraseIdx
        (2 * sol.reactions_ids.length +
          argminIdx ((sol.solution_vector.drop
            (2 * sol.reactions_ids.length)).map (|·|)))]⟩, rm', ?_, ?_, ?_, ?_⟩
  · rw [iter_function, if_pos hpos, h1]; rfl
  · simp only [hcount', hlen', hlen]; omega
  · simp only [hcount', hlen']; ring_nf
  · rfl

/-- Witness for C2: the reduction applied to the concrete four-node
solution of the C1 scenario, whose mask is the generated one. -/
theorem iter_function_reduces_dimension_witness :
    ∃ p rm',
      iter_function
          ⟨[0, 0, 0, 0, 0, 0, 0, 0, -1, 2, 3, -4, 1, 1/2, 6, 1/2, -11],
            [[2], [0, 2, 3], [0, 1, 2, 3], [0]],
            (generate_reactions_vector [[2], [0, 2, 3], [0, 1, 2, 3], [0]]).2⟩ =
        some (p, rm') ∧
      p.dim + 1 = 17 ∧
      p.dim = 2 * 4 + (9 - 1) ∧
      p.known_sol =
        [([0, 0, 0, 0, 0, 0, 0, 0, -1, 2, 3, -4, 1, 1/2, 6, 1/2, -11] :
            List ℚ).eraseIdx
          (2 * 4 +
            argminIdx ((([0, 0, 0, 0, 0, 0, 0, 0, -1, 2, 3, -4, 1, 1/2, 6,
                1/2, -11] : List ℚ).drop (2 * 4)).map (|·|)))] := by
  obtain ⟨p, rm', h1, h2, h3, h4⟩ :=
    iter_function_reduces_dimension
      ⟨[0, 0, 0, 0, 0, 0, 0, 0, -1, 2, 3, -4, 1, 1/2, 6, 1/2, -11],
        [[2], [0, 2, 3], [0, 1, 2, 3], [0]],
        (generate_reactions_vector [[2], [0, 2, 3], [0, 1, 2, 3], [0]]).2⟩
      (by unfold WF; decide) rfl (by norm_num [totalEdges])
      (by norm_num [totalEdges])
  exact ⟨p, rm', h1, h2, h3, h4⟩

theorem totalEdges_zero_wf (rm : RM) (h : totalEdges rm = 0) : WF rm := by
  intro s hs
  have hz : s.length = 0 := by
    simp only [totalEdges] at h
    exact List.sum_eq_zero_iff.1 h s.length (List.mem_map_of_mem _ hs)
  have : s = [] := List.length_eq_zero.1 hz
  subst this
  exact ⟨List.Pairwise.nil, by simp⟩

/-- When no reaction is left, the mask generated from the map has no set
bit, and `iter_function` stops without building a problem. -/
theorem iter_function_none (sol : SolutionE)
    (hmask : sol.react_mask = (generate_reactions_vector sol.reactions_ids).2)
    (h0 : totalEdges sol.reactions_ids = 0) :
    iter_function sol = none := by
  have hwf := totalEdges_zero_wf _ h0
  have hc : sol.react_mask.count true = 0 := by
    rw [hmask, mask_count _ hwf, h0]
  rw [iter_function, if_neg (by omega)]

/-- The pruning loop of `BaseOptimization.solve` restricted to its
reaction-map state: round after round, the champion vector delivered by
the optimizer (the oracle `vs`) is handed to `iter_function`; a successful
round recurses on the reduced map, a `False` iteration flag stops.  `fuel`
bounds the recursion; the count of successful rounds is returned. -/
def solve_prune_loop : ℕ → (ℕ → List ℚ) → RM → ℕ
  | 0, _, _ => 0
  | fuel + 1, vs, rm =>
    match iter_function ⟨vs 0, rm, (generate_reactions_vector rm).2⟩ with
    | none => 0
    | some (_, rm') => solve_prune_loop fuel (fun k => vs (k + 1)) rm' + 1

/-- C3: starting from any well-formed reaction map with `E` edges, and
assuming every round's champion vector is dimensionally consistent with
its round's problem (no round fails), the pruning loop performs exactly
`E` successful rounds; and once no edge remains `iter_function` builds no
further problem. -/
theorem pruning_terminates_after_E_rounds :
    (∀ (fuel : ℕ) (rm : RM) (vs : ℕ → List ℚ), WF rm →
        (∀ k, (vs k).length = 2 * rm.length + (totalEdges rm - k)) →
        totalEdges rm < fuel →
        solve_prune_loop fuel vs rm = totalEdges rm) ∧
    (∀ sol : SolutionE,
        sol.react_mask = (generate_reactions_vector sol.reactions_ids).2 →
        totalEdges sol.reactions_ids = 0 →
        iter_function sol = none) := by
  constructor
  · intro fuel
    induction fuel with
    | zero => intro rm vs _ _ hfuel; omega
    | succ f ihf =>
      intro rm vs hwf hlens hfuel
      show (match iter_function ⟨vs 0, rm, (generate_reactions_vector rm).2⟩ with
        | none => 0
        | some (_, rm') => solve_prune_loop f (fun k => vs (k + 1)) rm' + 1) =
          totalEdges rm
      by_cases hE0 : totalEdges rm = 0
      · rw [iter_function_none ⟨vs 0, rm, (generate_reactions_vector rm).2⟩ rfl hE0]
        show (0 : ℕ) = totalEdges rm
        omega
      · obtain ⟨rm', h1, hlen', hcount, hwf'⟩ :=
          remove_lowest_reaction_spec (vs 0) rm (by omega)
            (by rw [hlens 0]; omega)
        have hpos :
            0 < ((generate_reactions_vector rm).2).count true := by
          rw [mask_count rm hwf]; omega
        have hiter :
            iter_function ⟨vs 0, rm, (generate_reactions_vector rm).2⟩ =
              some
                (⟨rm'.length * 2 + ((generate_reactions_vector rm').2).count true,
                  default_bounds rm'.length
                    (((generate_reactions_vector rm').2).count true),
                  (generate_reactions_vector rm').1,
                  (generate_reactions_vector rm').2,
                  [(vs 0).eraseIdx
                    (2 * rm.length +
                      argminIdx (((vs 0).drop (2 * rm.length)).map (|·|)))]⟩,
                  rm') := by
          rw [iter_function, if_pos hpos, h1]; rfl
        rw [hiter]
        show solve_prune_loop f (fun k => vs (k + 1)) rm' + 1 = totalEdges rm
        have hrec :
            solve_prune_loop f (fun k => vs (k + 1)) rm' = totalEdges rm' := by
          apply ihf rm' (fun k => vs (k + 1)) (hwf' hwf)
          · intro k
            rw [hlens (k + 1), hlen']
            omega
          · omega
        rw [hrec]
        omega
  · exact iter_function_none

/-- Witness for C3: a two-node map with two edges is pruned in exactly two
rounds by dimensionally consistent champion vectors. -/
theorem pruning_terminates_after_E_rounds_witness :
    solve_prune_loop 3 (fun k => List.replicate (4 + (2 - k)) (1 : ℚ))
        [[1], [0]] = 2 := by
  have h := pruning_terminates_after_E_rounds.1 3 [[1], [0]]
    (fun k => List.replicate (4 + (2 - k)) (1 : ℚ))
    (by unfold WF; decide)
    (by intro k; simp [totalEdges])
    (by norm_num [totalEdges])
  simpa [totalEdges] using h

/-- Mask-based extraction of the edge set: for each node row, collect the
column indices whose mask bit is set (the positions the edge-value slice is
scattered back into). -/
def decodeMask (n : ℕ) (mask : List Bool) : RM :=
  (List.range n).map (fun i => (List.range n).filter (fun j => mask.getD (i * n + j) false))

/-- C7: encoding a well-formed reaction map with `generate_reactions_vector`
and extracting the mask-marked positions row by row recovers exactly the
original reaction map (round trip of encode followed by decode). -/
theorem generate_reactions_vector_roundtrip (rm : RM) (h : WF rm) :
    decodeMask rm.length (generate_reactions_vector rm).2 = rm := by
  conv_rhs => rw [← list_eq_map_range rm []]
  unfold decodeMask
  apply List.map_congr_left
  intro i hi
  rw [List.mem_range] at hi
  have hrow : ∀ j ∈ List.range rm.length,
      ((generate_reactions_vector rm).2).getD (i * rm.length + j) false =
        decide (j ∈ rm.getD i []) := by
    intro j hj
    exact generate_mask_getD rm i j hi (List.mem_range.1 hj)
  rw [List.filter_congr hrow]
  have hmem : rm.getD i [] ∈ rm := by
    rw [List.getD_eq_getElem _ _ hi]
    exact List.getElem_mem _
  obtain ⟨hsort, hbound⟩ := h _ hmem
  exact filter_range_eq _ _ hsort hbound

/-- Witness for C7: the round trip evaluated on the concrete four-node
reaction map of the test suite. -/
theorem generate_reactions_vector_roundtrip_witness :
    decodeMask 4
        (generate_reactions_vector [[2], [0, 2, 3], [0, 1, 2, 3], [0]]).2 =
      [[2], [0, 2, 3], [0, 1, 2, 3], [0]] :=
  generate_reactions_vector_roundtrip [[2], [0, 2, 3], [0, 1, 2, 3], [0]]
    (by unfold WF; decide)

/-- A PyGMO island champion as read by `BaseOptimization._get_solutions`:
decision vector `x` and fitness `f[0]`. -/
structure ChampionE where
  x : List ℚ
  f : ℚ

/-- The parts of a `BaseSolution` relevant to ranking: the champion's
vector, its cost (`champ.f[0]`, taken directly from the fitness, not
recomputed) and the round's reaction-map snapshot. -/
structure SolutionR where
  solution_vector : List ℚ
  cost : ℚ
  reactions_ids : RM

instance : Inhabited SolutionR := ⟨⟨[], 0, []⟩⟩

/-- The order `SortedList` uses on `BaseSolution`s, i.e. `__lt__`/`__le__`
comparison of costs. -/
def solutionOrder (a b : SolutionR) : Prop := a.cost ≤ b.cost

instance : DecidableRel solutionOrder := fun a b =>
  inferInstanceAs (Decidable (a.cost ≤ b.cost))

instance : IsTotal SolutionR solutionOrder := ⟨fun a b => le_total a.cost b.cost⟩

instance : IsTrans SolutionR solutionOrder :=
  ⟨fun _ _ _ h1 h2 => le_trans h1 h2⟩

/-- `self._context.SolutionClass(champ, reactions, prob)`: wrap a champion
into a solution carrying the round's reaction map. -/
def mkSolution (reactions : RM) (champ : ChampionE) : SolutionR :=
  ⟨champ.x, champ.f, reactions⟩

/-- `BaseOptimization._get_solutions`: wrap every island champion and keep
them in a `SortedList`, i.e. sorted ascending by cost. -/
def get_solutions (champs : List ChampionE) (reactions : RM) : List SolutionR :=
  List.insertionSort solutionOrder (champs.map (mkSolution reactions))

/-- `BaseOptimization._generate_solution`: rank the champions, hand the
full ranked list to the solutions handler, and return `solutions[0]`.
The first component is the list passed to `handler.handle_solutions`, the
second the solution returned to the caller. -/
def generate_solution (champs : List ChampionE) (reactions : RM) :
    List SolutionR × Option SolutionR :=
  let solutions := get_solutions champs reactions
  (solutions, solutions.head?)

/-- C4: for every list of island champions the round's ranked list is
sorted ascending by cost (`index(S1) < index(S2)` implies
`S1.cost ≤ S2.cost`), it is the full list of wrapped champions (not a
truncation) that is handed to the solutions handler, and the solution
returned to the caller is exactly the first (lowest-cost) element of that
same list. -/
theorem generate_solution_ranked (champs : List ChampionE) (reactions : RM)
    (h : champs ≠ []) :
    List.Sorted solutionOrder (generate_solution champs reactions).1 ∧
    (∀ i j : ℕ, i < j → j < (generate_solution champs reactions).1.length →
      ((generate_solution champs reactions).1.getD i default).cost ≤
        ((generate_solution champs reactions).1.getD j default).cost) ∧
    ((generate_solution champs reactions).1).Perm
      (champs.map (mkSolution reactions)) ∧
    (generate_solution champs reactions).2 =
      (generate_solution champs reactions).1.head? ∧
    ∃ best, (generate_solution champs reactions).2 = some best ∧
      ∀ s ∈ (generate_solution champs reactions).1, best.cost ≤ s.cost := by
  have hsorted : List.Sorted solutionOrder (generate_solution champs reactions).1 :=
    List.sorted_insertionSort solutionOrder _
  have hperm : ((generate_solution champs reactions).1).Perm
      (champs.map (mkSolution reactions)) :=
    List.perm_insertionSort solutionOrder _
  have hne : (generate_solution champs reactions).1 ≠ [] := by
    intro h0
    have := hperm.length_eq
    rw [h0] at this
    simp only [List.length_nil, List.length_map] at this
    exact h (List.length_eq_zero.1 this.symm)
  refine ⟨hsorted, ?_, hperm, rfl, ?_⟩
  · intro i j hij hj
    have hi : i < (generate_solution champs reactions).1.length := lt_trans hij hj
    rw [List.getD_eq_getElem _ _ hi, List.getD_eq_getElem _ _ hj]
    exact List.pairwise_iff_getElem.1 hsorted i j hi hj hij
  · cases hlist : (generate_solution champs reactions).1 with
    | nil => exact absurd hlist hne
    | cons b rest =>
      refine ⟨b, ?_, ?_⟩
      · show (generate_solution champs reactions).1.head? = some b
        rw [hlist]; rfl
      · intro s hs
        rw [hlist] at hsorted
        rcases List.mem_cons.1 hs with rfl | hmem
        · exact le_refl s.cost
        · exact (List.pairwise_cons.1 hsorted).1 s hmem

/-- Witness for C4: two concrete champions, ranked. -/
theorem generate_solution_ranked_witness :
    List.Sorted solutionOrder
        (generate_solution [⟨[1], 5⟩, ⟨[2], 3⟩] [[0]]).1 ∧
    (∀ i j : ℕ, i < j → j < (generate_solution [⟨[1], 5⟩, ⟨[2], 3⟩] [[0]]).1.length →
      ((generate_solution [⟨[1], 5⟩, ⟨[2], 3⟩] [[0]]).1.getD i default).cost ≤
        ((generate_solution [⟨[1], 5⟩, ⟨[2], 3⟩] [[0]]).1.getD j default).cost) ∧
    ((generate_solution [⟨[1], 5⟩, ⟨[2], 3⟩] [[0]]).1).Perm
      ([⟨[1], 5⟩, ⟨[2], 3⟩].map (mkSolution [[0]])) ∧
    (generate_solution [⟨[1], 5⟩, ⟨[2], 3⟩] [[0]]).2 =
      (generate_solution [⟨[1], 5⟩, ⟨[2], 3⟩] [[0]]).1.head? ∧
    ∃ best, (generate_solution [⟨[1], 5⟩, ⟨[2], 3⟩] [[0]]).2 = some best ∧
      ∀ s ∈ (generate_solution [⟨[1], 5⟩, ⟨[2], 3⟩] [[0]]).1, best.cost ≤ s.cost :=
  generate_solution_ranked [⟨[1], 5⟩, ⟨[2], 3⟩] [[0]] (by simp)

/-- The round-outcome accumulation of `BaseOptimization.solve`: each list
entry abstracts one pruning round (`_generate_solution` plus the iteration
step); an `ok` adds the round's best solution to the collected ones, the
first `error` aborts the loop (the `except` clause) and nothing after it
is looked at. -/
def collect_rounds : List (Except String SolutionR) → List SolutionR
  | [] => []
  | .error _ :: _ => []
  | .ok s :: rest => s :: collect_rounds rest

/-- `BaseOptimization.solve`: run rounds until exhaustion or the first
exception, and return the `SortedList` of the solutions collected so far
(cost-ascending). -/
def solve_rounds (outcomes : List (Except String SolutionR)) : List SolutionR :=
  List.insertionSort solutionOrder (collect_rounds outcomes)

theorem collect_rounds_ok_firstpart (oks : List SolutionR) :
    ∀ tail, collect_rounds (oks.map Except.ok ++ tail) =
      oks ++ collect_rounds tail := by
  induction oks with
  | nil => intro tail; rfl
  | cons s rest ih => intro tail; simp [collect_rounds, ih]

/-- C9: if a round raises, the solve loop terminates early: it returns all
solutions of the previously completed rounds (sorted by cost), the result
is the same as if the run had stopped right at the failure (no retry, the
rounds after the failure are never looked at), and it is never a crash or
an empty result when rounds have completed. -/
theorem solve_rounds_partial_results (oks : List SolutionR) (e : String)
    (rest : List (Except String SolutionR)) :
    solve_rounds (oks.map Except.ok ++ Except.error e :: rest) =
        List.insertionSort solutionOrder oks ∧
    solve_rounds (oks.map Except.ok ++ Except.error e :: rest) =
        solve_rounds (oks.map Except.ok ++ [Except.error e]) ∧
    (solve_rounds (oks.map Except.ok ++ Except.error e :: rest)).Perm oks := by
  have hcoll : collect_rounds (oks.map Except.ok ++ Except.error e :: rest) = oks := by
    rw [collect_rounds_ok_firstpart]
    simp [collect_rounds]
  have hcoll2 : collect_rounds (oks.map Except.ok ++ [Except.error e]) = oks := by
    rw [collect_rounds_ok_firstpart]
    simp [collect_rounds]
  refine ⟨?_, ?_, ?_⟩
  · rw [solve_rounds, hcoll]
  · rw [solve_rounds, hcoll, solve_rounds, hcoll2]
  · rw [solve_rounds, hcoll]
    exact List.perm_insertionSort solutionOrder oks

/-- `react_vect[mask] = values`: scatter the edge-value slice into the
dense reaction vector at the mask-marked positions; `none` embeds numpy's
error when lengths disagree (more or fewer values than set mask bits). -/
def scatterList : List ℚ → List Bool → List ℚ → Option (List ℚ)
  | [], [], [] => some []
  | v :: vs, false :: ms, xs => (scatterList vs ms xs).map (v :: ·)
  | _ :: vs, true :: ms, x :: xs => (scatterList vs ms xs).map (x :: ·)
  | _, _, _ => none

/-- `CoreSolution.get_solution_matrix`: one row per transcription factor,
columns `[lambda, vmax, edge_weight_1 .. edge_weight_n]` — the lambdas are
the first `n` slots of the decision vector, the vmax the next `n`, and the
trailing slots are scattered through the mask into the dense `n × n`
reaction matrix whose `i`-th row closes row `i`. -/
def get_solution_matrix (solution : List ℚ) (reactions_ids : RM)
    (react_vect : List ℚ) (react_mask : List Bool) : Option (List (List ℚ)) :=
  let num_tfacts := reactions_ids.length
  let lambdas := solution.take num_tfacts
  let vmax := (solution.drop num_tfacts).take num_tfacts
  (scatterList react_vect react_mask (solution.drop (2 * num_tfacts))).map
    (fun scattered =>
      (List.range num_tfacts).map (fun i =>
        lambdas.getD i 0 :: vmax.getD i 0 ::
          (scattered.drop (i * num_tfacts)).take num_tfacts))

/-- C8: the decision vector `[1, 1.5, 0, 2, 2.5, 5, 1, 1, 1]` over three
nodes, with the reaction map `{0:{}, 1:{0,2}, 2:{2}}` and its mask,
produces exactly the rows `[1, 2, 0, 0, 0]`, `[1.5, 2.5, 1, 0, 1]`,
`[0, 5, 0, 0, 1]`: per node, lambda, vmax, then that node's row of the
scattered edge matrix. -/
theorem get_solution_matrix_scenario :
    get_solution_matrix [1, 3/2, 0, 2, 5/2, 5, 1, 1, 1]
        [[], [0, 2], [2]]
        [0, 0, 0, 1, 0, 1, 0, 0, 1]
        [false, false, false, true, false, true, false, false, true] =
      some [[1, 2, 0, 0, 0], [3/2, 5/2, 1, 0, 1], [0, 5, 0, 0, 1]] := by
  norm_num [get_solution_matrix, scatterList, List.range_succ]

/-- Sorted-set insertion: `SortedSet.add` on the embedded sorted lists. -/
def insertSortedSet (x : ℕ) : List ℕ → List ℕ
  | [] => [x]
  | y :: ys =>
    if x < y then x :: y :: ys
    else if x = y then y :: ys
    else y :: insertSortedSet x ys

/-- `if key not in reactions_sorted: reactions_sorted[key] = SortedSet()`:
insert a key with an empty set unless it is already present, keeping the
association list sorted by key. -/
def ensureKey (k : ℕ) : List (ℕ × List ℕ) → List (ℕ × List ℕ)
  | [] => [(k, [])]
  | (key, s) :: rest =>
    if k < key then (k, []) :: (key, s) :: rest
    else if k = key then (key, s) :: rest
    else (key, s) :: ensureKey k rest

/-- `reactions_sorted[reaction].add(tfact)` on an existing key. -/
def addToKey (k t : ℕ) : List (ℕ × List ℕ) → List (ℕ × List ℕ)
  | [] => []
  | (key, s) :: rest =>
    if k = key then (key, insertSortedSet t s) :: rest
    else (key, s) :: addToKey k t rest

/-- `CoreSystem.__reactions_from_network` (with the `tfacts` set built in
`CoreSystem.__init__` as keys union all influenced sets): reverse the
network map — for every entry `(tfact, influenced)` add `tfact` to the
reaction set of each influenced node, counting one reaction per addition —
then, when `correction` is set, replace every still-empty reaction set
with the full transcription-factor set, adding `len(tfacts)` to the
count. -/
def reactions_from_network (network : List (ℕ × List ℕ)) (correction : Bool) :
    List (ℕ × List ℕ) × ℕ :=
  let tfacts :=
    (network.map Prod.fst ++ (network.map Prod.snd).flatten).foldr
      insertSortedSet []
  let base : List (ℕ × List ℕ) × ℕ :=
    network.foldl
      (fun acc entry =>
        entry.2.foldl
          (fun acc2 reaction =>
            (addToKey reaction entry.1 (ensureKey reaction acc2.1), acc2.2 + 1))
          (ensureKey entry.1 acc.1, acc.2))
      ([], 0)
  if correction then
    (base.1.map (fun p => if p.2.isEmpty then (p.1, tfacts) else p),
     base.1.foldl
       (fun c p => if p.2.isEmpty then c + tfacts.length else c) base.2)
  else base

/-- Counterexample for C6: on the network `{A:{}, B:{A,C}, C:{C}}`
(A = 0, B = 1, C = 2) with correction enabled, node A's regulator set is
`{B}` — not `{A, B, C}` as the claim states — because B influences A, so A
is not unregulated. -/
theorem reactions_from_network_A_counterexample :
    (reactions_from_network [(0, []), (1, [0, 2]), (2, [2])] true).1.lookup 0 =
        some [1] ∧
      (some [1] : Option (List ℕ)) ≠ some [0, 1, 2] := by
  constructor
  · rfl
  · decide

/-- C6 (amended): on the network `{A:{}, B:{A,C}, C:{C}}` (A = 0, B = 1,
C = 2) with correction enabled, the reversed reaction map gives A the
regulator set `{B}`, C the set `{B, C}`, and the unregulated node B — the
one with no incoming edge — the full set `{A, B, C}`; six reactions are
counted in total. -/
theorem reactions_from_network_scenario :
    reactions_from_network [(0, []), (1, [0, 2]), (2, [2])] true =
      ([(0, [1]), (1, [0, 1, 2]), (2, [1, 2])], 6) := by
  rfl

/-- Model of an IEEE-754 double as used by the numpy pipeline of
`CoreProblem._objfun_impl`: a finite value (exact, as a rational), the two
infinities and NaN.  Every arithmetic operation propagates NaN, as numpy
does (`np.seterr` only silences the warnings, it does not change the
values). -/
inductive FV where
  | fin : ℚ → FV
  | pinf : FV
  | ninf : FV
  | nan : FV
deriving DecidableEq

namespace FV

def add : FV → FV → FV
  | nan, _ => nan
  | _, nan => nan
  | fin a, fin b => fin (a + b)
  | pinf, ninf => nan
  | ninf, pinf => nan
  | pinf, _ => pinf
  | _, pinf => pinf
  | ninf, _ => ninf
  | _, ninf => ninf

def sub : FV → FV → FV
  | nan, _ => nan
  | _, nan => nan
  | fin a, fin b => fin (a - b)
  | pinf, pinf => nan
  | ninf, ninf => nan
  | pinf, _ => pinf
  | ninf, _ => ninf
  | _, pinf => ninf
  | _, ninf => pinf

def mul : FV → FV → FV
  | nan, _ => nan
  | _, nan => nan
  | fin a, fin b => fin (a * b)
  | pinf, pinf => pinf
  | pinf, ninf => ninf
  | ninf, pinf => ninf
  | ninf, ninf => pinf
  | pinf, fin b => if b = 0 then nan else if 0 < b then pinf else ninf
  | fin a, pinf => if a = 0 then nan else if 0 < a then pinf else ninf
  | ninf, fin b => if b = 0 then nan else if 0 < b then ninf else pinf
  | fin a, ninf => if a = 0 then nan else if 0 < a then ninf else pinf

def div : FV → FV → FV
  | nan, _ => nan
  | _, nan => nan
  | fin a, fin b =>
    if b = 0 then (if a = 0 then nan else if 0 < a then pinf else ninf)
    else fin (a / b)
  | pinf, fin b => if 0 ≤ b then pinf else ninf
  | ninf, fin b => if 0 ≤ b then ninf else pinf
  | fin _, pinf => fin 0
  | fin _, ninf => fin 0
  | pinf, _ => nan
  | ninf, _ => nan

/-- `np.maximum` / the reduction step of `np.amax`: NaN-propagating. -/
def fmax : FV → FV → FV
  | nan, _ => nan
  | _, nan => nan
  | fin a, fin b => fin (max a b)
  | pinf, _ => pinf
  | _, pinf => pinf
  | ninf, x => x
  | x, ninf => x

def isFinite : FV → Bool
  | fin _ => true
  | _ => false

end FV

/-- `np.amax` over a vector (`nan` also stands for numpy's error on an
empty input, which never produces a usable value either). -/
def amaxList : List FV → FV
  | [] => FV.nan
  | x :: xs => xs.foldl FV.fmax x

/-- `np.sum`. -/
def sumFV (l : List FV) : FV := l.foldl FV.add (FV.fin 0)

/-- `np.amax(results, axis=0)`: the per-column maxima of the simulated
output, one entry per column of the first row. -/
def colMaxes (results : List (List FV)) : List FV :=
  (List.range (results.headD []).length).map
    (fun j => amaxList (results.map (fun row => row.getD j FV.nan)))

/-- The cost computation of `CoreProblem._objfun_impl` after the ODE call:
`norm_results = results / amax(results, axis=0)` followed by
`sum((data - norm_results)² / sigma²)`. -/
def objfun_impl_cost (results data : List (List FV)) (sigma2 : List FV) : FV :=
  let norm := results.map (fun row => List.zipWith FV.div row (colMaxes results))
  let residuals :=
    List.zipWith
      (fun drow nrow =>
        List.zipWith FV.div
          ((List.zipWith FV.sub drow nrow).map (fun x => FV.mul x x))
          sigma2)
      data norm
  sumFV residuals.flatten

theorem add_nan_right (x : FV) : FV.add x FV.nan = FV.nan := by
  cases x <;> rfl

theorem add_nan_left (x : FV) : FV.add FV.nan x = FV.nan := by
  cases x <;> rfl

theorem foldl_add_from_nan (l : List FV) : l.foldl FV.add FV.nan = FV.nan := by
  induction l with
  | nil => rfl
  | cons x xs ih => rw [List.foldl_cons, add_nan_left, ih]

theorem foldl_add_nan_mem (l : List FV) :
    ∀ acc, FV.nan ∈ l → l.foldl FV.add acc = FV.nan := by
  induction l with
  | nil => intro acc h; simp at h
  | cons x xs ih =>
    intro acc h
    rcases List.mem_cons.1 h with rfl | hmem
    · rw [List.foldl_cons, add_nan_right, foldl_add_from_nan]
    · exact ih _ hmem

theorem sumFV_nan_mem (l : List FV) (h : FV.nan ∈ l) : sumFV l = FV.nan :=
  foldl_add_nan_mem l _ h

theorem fmax_zero_zero : FV.fmax (FV.fin 0) (FV.fin 0) = FV.fin 0 := by
  simp [FV.fmax]

theorem amax_all_zero (l : List FV) (hne : l ≠ [])
    (h : ∀ x ∈ l, x = FV.fin 0) : amaxList l = FV.fin 0 := by
  cases l with
  | nil => exact absurd rfl hne
  | cons x xs =>
    obtain rfl := h x (by simp)
    rw [amaxList]
    have : ∀ ys : List FV, (∀ y ∈ ys, y = FV.fin 0) →
        ys.foldl FV.fmax (FV.fin 0) = FV.fin 0 := by
      intro ys
      induction ys with
      | nil => intro _; rfl
      | cons y ys ihy =>
        intro hy
        obtain rfl := hy y (by simp)
        rw [List.foldl_cons, fmax_zero_zero]
        exact ihy (fun z hz => hy z (by simp [hz]))
    exact this xs (fun y hy => h y (by simp [hy]))

theorem sub_nan_right (x : FV) : FV.sub x FV.nan = FV.nan := by
  cases x <;> rfl

theorem mul_nan_left (x : FV) : FV.mul FV.nan x = FV.nan := by
  cases x <;> rfl

theorem div_nan_left (x : FV) : FV.div FV.nan x = FV.nan := by
  cases x <;> rfl

theorem div_zero_zero : FV.div (FV.fin 0) (FV.fin 0) = FV.nan := by
  simp [FV.div]

/-- Counterexample for C5: a simulated output whose (only) column has
maximum exactly 0.  `_objfun_impl` has no branch for this case: the
normalization divides by the zero maximum, `0/0` is NaN, and the returned
cost — the exact value handed to the metaheuristic as the solution's
fitness — is NaN, not a fallback value. -/
theorem objfun_impl_cost_nan_counterexample :
    colMaxes [[FV.fin 0], [FV.fin 0]] = [FV.fin 0] ∧
    objfun_impl_cost [[FV.fin 0], [FV.fin 0]] [[FV.fin 1], [FV.fin 1]]
        [FV.fin 1] = FV.nan ∧
    FV.isFinite
        (objfun_impl_cost [[FV.fin 0], [FV.fin 0]] [[FV.fin 1], [FV.fin 1]]
          [FV.fin 1]) = false := by
  refine ⟨by decide, by decide, by decide⟩

/-- C5 (amended): when some column of the simulated output is identically
zero (so its maximum is exactly 0), the cost evaluation of
`CoreProblem._objfun_impl` applies no fallback at all — the normalization
divides by the zero column maximum, the column becomes NaN, and the total
cost is NaN, which is returned as the solution's fitness. -/
theorem objfun_impl_cost_nan_on_zero_column
    (results data : List (List FV)) (sigma2 : List FV) (j : ℕ)
    (hlen : results.length = data.length)
    (hne : results ≠ [])
    (hj : j < (results.headD []).length)
    (hzero : ∀ row ∈ results, row.getD j FV.nan = FV.fin 0)
    (hdata : ∀ row ∈ data, j < row.length)
    (hsig : j < sigma2.length) :
    objfun_impl_cost results data sigma2 = FV.nan := by
  cases results with
  | nil => exact absurd rfl hne
  | cons r0 rs =>
  cases data with
  | nil => simp at hlen
  | cons d0 ds =>
  simp only [List.headD_cons] at hj
  have hr0 : r0 ∈ r0 :: rs := by simp
  have hd0 : d0 ∈ d0 :: ds := by simp
  set results := r0 :: rs with hresults
  set data := d0 :: ds with hdata0
  -- the per-column maxima at column j
  have hclen : (colMaxes results).length = r0.length := by
    simp [colMaxes, hresults]
  have hjc : j < (colMaxes results).length := by omega
  have hcol : (colMaxes results)[j] = FV.fin 0 := by
    have : (colMaxes results)[j] =
        amaxList (results.map (fun row => row.getD j FV.nan)) := by
      simp only [colMaxes, List.getElem_map, List.getElem_range, hresults,
        List.headD_cons]
    rw [this]
    apply amax_all_zero
    · simp [hresults]
    · intro x hx
      obtain ⟨row, hrow, rfl⟩ := List.mem_map.1 hx
      exact hzero row hrow
  -- the normalized first row at column j is NaN
  have hjr0 : j < r0.length := hj
  have hr0j : r0[j] = FV.fin 0 := by
    have := hzero r0 hr0
    rwa [List.getD_eq_getElem _ _ hjr0] at this
  have hnormlen : j < (List.zipWith FV.div r0 (colMaxes results)).length := by
    rw [List.length_zipWith]
    omega
  have hnorm0 : (List.zipWith FV.div r0 (colMaxes results))[j] = FV.nan := by
    rw [List.getElem_zipWith, hr0j, hcol]
    exact div_zero_zero
  -- the residual first row at column j is NaN
  have hjd0 : j < d0.length := hdata d0 hd0
  have hreslen : j <
      (List.zipWith FV.div
        ((List.zipWith FV.sub d0 (List.zipWith FV.div r0 (colMaxes results))).map
          (fun x => FV.mul x x)) sigma2).length := by
    rw [List.length_zipWith, List.length_map, List.length_zipWith]
    omega
  have hresj :
      (List.zipWith FV.div
        ((List.zipWith FV.sub d0 (List.zipWith FV.div r0 (colMaxes results))).map
          (fun x => FV.mul x x)) sigma2)[j] = FV.nan := by
    rw [List.getElem_zipWith, List.getElem_map, List.getElem_zipWith, hnorm0,
      sub_nan_right, mul_nan_left, div_nan_left]
  -- hence NaN is among the summed residuals
  have hnanmem : FV.nan ∈
      (List.zipWith
        (fun drow nrow =>
          List.zipWith FV.div
            ((List.zipWith FV.sub drow nrow).map (fun x => FV.mul x x))
            sigma2)
        data (results.map (fun row => List.zipWith FV.div row (colMaxes results)))).flatten := by
    rw [List.mem_flatten]
    refine ⟨List.zipWith FV.div
      ((List.zipWith FV.sub d0 (List.zipWith FV.div r0 (colMaxes results))).map
        (fun x => FV.mul x x)) sigma2, ?_, ?_⟩
    · have h0 : (0 : ℕ) <
          (List.zipWith
            (fun drow nrow =>
              List.zipWith FV.div
                ((List.zipWith FV.sub drow nrow).map (fun x => FV.mul x x))
                sigma2)
            data (results.map (fun row => List.zipWith FV.div row (colMaxes results)))).length := by
        rw [List.length_zipWith]
        simp [hresults, hdata0]
      have := List.getElem_mem h0
      rwa [List.getElem_zipWith] at this
    · rw [← hresj]
      exact List.getElem_mem hreslen
  show sumFV _ = FV.nan
  exact sumFV_nan_mem _ hnanmem

/-- Witness for the amended C5 statement: the all-zero single-column
simulated output. -/
theorem objfun_impl_cost_nan_on_zero_column_witness :
    objfun_impl_cost [[FV.fin 0], [FV.fin 0]] [[FV.fin 1], [FV.fin 1]]
        [FV.fin 1] = FV.nan :=
  objfun_impl_cost_nan_on_zero_column [[FV.fin 0], [FV.fin 0]]
    [[FV.fin 1], [FV.fin 1]] [FV.fin 1] 0 rfl (by simp) (by simp)
    (by decide) (by decide) (by simp)

/-- A heap of reaction-map objects: Python references become indices into
this store, `deepcopy` becomes allocation of a fresh cell, and the
in-place `SortedSet.pop` becomes `List.set` on the owning cell.  This
makes the aliasing behaviour of the source explicit so that
non-mutation is a provable statement rather than a vacuous one. -/
abbrev Store := List RM

/-- `copy.deepcopy`: allocate a fresh cell holding the same value and
return its reference. -/
def deepcopyRM (st : Store) (r : ℕ) : Store × ℕ :=
  (st ++ [st.getD r []], st.length)

/-- `remove_lowest_reaction` with its mutation made explicit: read the map
referenced by `r`, compute the argmin index, `reactions = deepcopy(reactions)`,
then pop the found regulator from the copy in place (a `List.set` on the
copy's cell); the original cell is never written. -/
def remove_lowest_reaction_st (st : Store) (vres : List ℚ) (r : ℕ) :
    Option (Store × List ℚ × ℕ) :=
  let rm := st.getD r []
  let n := rm.length
  let j := argminIdx ((vres.drop (2 * n)).map (|·|))
  let copy := deepcopyRM st r
  (removeFromCount rm j).map (fun rm' =>
    (copy.1.set copy.2 rm', vres.eraseIdx (2 * n + j), copy.2))

/-- `BaseSolution.reactions_ids`: the property returns
`deepcopy(self._reactions_ids)` — a fresh cell, never the stored one. -/
def reactions_ids_st (st : Store) (r : ℕ) : Store × ℕ := deepcopyRM st r

/-- `iter_function` over the store: read `solution.reactions_ids` (a deep
copy), hand it to `remove_lowest_reaction` (which copies again and pops
the second copy); the final store and the optional
`(reduced vector, new map reference)` result are returned (`none` both
when the mask is empty and when the removal raises). -/
def iter_function_st (st : Store) (vres : List ℚ) (r : ℕ) (mask : List Bool) :
    Store × Option (List ℚ × ℕ) :=
  if 0 < mask.count true then
    let ids := reactions_ids_st st r
    match remove_lowest_reaction_st ids.1 vres ids.2 with
    | none => (ids.1, none)
    | some (st', v', r') => (st', some (v', r'))
  else (st, none)

/-- C10: `remove_lowest_reaction` never mutates the reaction map passed to
it — every previously existing cell of the store, in particular the one
passed in, is unchanged and the returned map lives in a fresh cell;
reading `reactions_ids` likewise returns a fresh deep copy with the same
value, leaving the stored map untouched; consequently the whole
`iter_function` round leaves every pre-existing cell — including the
current round's reaction-map snapshot — unchanged. -/
theorem iter_function_no_mutation (st : Store) (vres : List ℚ) (r : ℕ)
    (mask : List Bool) (hr : r < st.length) :
    (∀ st' v' cr, remove_lowest_reaction_st st vres r = some (st', v', cr) →
        (∀ q < st.length, st'[q]? = st[q]?) ∧ cr ≠ r) ∧
    ((reactions_ids_st st r).1[r]? = st[r]? ∧
      (reactions_ids_st st r).2 ≠ r ∧
      (reactions_ids_st st r).1[(reactions_ids_st st r).2]? = st[r]?) ∧
    (∀ q < st.length,
      (iter_function_st st vres r mask).1[q]? = st[q]?) := by
  have hfresh : ∀ (st0 : Store) (q : ℕ), q < st0.length →
      ∀ x, (st0 ++ [x])[q]? = st0[q]? := by
    intro st0 q hq x
    exact List.getElem?_append_left hq
  have hremove : ∀ (st0 : Store) (v0 : List ℚ) (r0 : ℕ), r0 < st0.length →
      ∀ st' v' cr, remove_lowest_reaction_st st0 v0 r0 = some (st', v', cr) →
        (∀ q < st0.length, st'[q]? = st0[q]?) ∧ cr ≠ r0 := by
    intro st0 v0 r0 hr0 st' v' cr h
    simp only [remove_lowest_reaction_st, deepcopyRM] at h
    cases hrc : removeFromCount (st0.getD r0 [])
        (argminIdx ((v0.drop (2 * (st0.getD r0 []).length)).map (|·|))) with
    | none => rw [hrc] at h; simp at h
    | some rm' =>
      rw [hrc] at h
      simp only [Option.map_some', Option.some.injEq, Prod.mk.injEq] at h
      obtain ⟨hst, _, hcr⟩ := h
      subst hst
      subst hcr
      constructor
      · intro q hq
        rw [List.getElem?_set_ne (by omega)]
        exact hfresh st0 q hq _
      · omega
  refine ⟨hremove st vres r hr, ⟨?_, ?_, ?_⟩, ?_⟩
  · exact hfresh st r hr _
  · show st.length ≠ r
    omega
  · show (st ++ [st.getD r []])[st.length]? = st[r]?
    rw [List.getElem?_append_right (le_refl _)]
    simp only [Nat.sub_self, List.getElem?_cons_zero]
    rw [List.getD_eq_getElem _ _ hr, List.getElem?_eq_getElem hr]
  · intro q hq
    show (iter_function_st st vres r mask).1[q]? = st[q]?
    rw [iter_function_st]
    by_cases hm : 0 < mask.count true
    · rw [if_pos hm]
      show (match remove_lowest_reaction_st (reactions_ids_st st r).1 vres
            (reactions_ids_st st r).2 with
        | none => ((reactions_ids_st st r).1, none)
        | some (st', v', r') => (st', some (v', r'))).1[q]? = st[q]?
      cases hrem : remove_lowest_reaction_st (reactions_ids_st st r).1 vres
          (reactions_ids_st st r).2 with
      | none =>
        show ((reactions_ids_st st r).1)[q]? = st[q]?
        exact hfresh st q hq _
      | some out =>
        obtain ⟨st', v', r'⟩ := out
        show st'[q]? = st[q]?
        have hr2 : (reactions_ids_st st r).2 < (reactions_ids_st st r).1.length := by
          simp [reactions_ids_st, deepcopyRM]
        have hq' : q < (reactions_ids_st st r).1.length := by
          simp only [reactions_ids_st, deepcopyRM, List.length_append,
            List.length_cons, List.length_nil]
          omega
        obtain ⟨hframe, _⟩ :=
          hremove (reactions_ids_st st r).1 vres (reactions_ids_st st r).2 hr2
            st' v' r' hrem
        rw [hframe q hq']
        exact hfresh st q hq _
    · rw [if_neg hm]

/-- Witness for C10: the frame property evaluated on a concrete one-cell
store holding the four-node reaction map. -/
theorem iter_function_no_mutation_witness :
    (∀ st' v' cr,
        remove_lowest_reaction_st [[[2], [0, 2, 3], [0, 1, 2, 3], [0]]]
            [0, 0, 0, 0, 0, 0, 0, 0, -1, 2, 3, -4, 1, 1/2, 6, 1/2, -11] 0 =
          some (st', v', cr) →
        (∀ q < ([[[2], [0, 2, 3], [0, 1, 2, 3], [0]]] : Store).length,
            st'[q]? = ([[[2], [0, 2, 3], [0, 1, 2, 3], [0]]] : Store)[q]?) ∧
          cr ≠ 0) ∧
    ((reactions_ids_st [[[2], [0, 2, 3], [0, 1, 2, 3], [0]]] 0).1[0]? =
        ([[[2], [0, 2, 3], [0, 1, 2, 3], [0]]] : Store)[0]? ∧
      (reactions_ids_st [[[2], [0, 2, 3], [0, 1, 2, 3], [0]]] 0).2 ≠ 0 ∧
      (reactions_ids_st [[[2], [0, 2, 3], [0, 1, 2, 3], [0]]] 0).1[
          (reactions_ids_st [[[2], [0, 2, 3], [0, 1, 2, 3], [0]]] 0).2]? =
        ([[[2], [0, 2, 3], [0, 1, 2, 3], [0]]] : Store)[0]?) ∧
    (∀ q < ([[[2], [0, 2, 3], [0, 1, 2, 3], [0]]] : Store).length,
      (iter_function_st [[[2], [0, 2, 3], [0, 1, 2, 3], [0]]]
          [0, 0, 0, 0, 0, 0, 0, 0, -1, 2, 3, -4, 1, 1/2, 6, 1/2, -11] 0
          (generate_reactions_vector [[2], [0, 2, 3], [0, 1, 2, 3], [0]]).2).1[q]? =
        ([[[2], [0, 2, 3], [0, 1, 2, 3], [0]]] : Store)[q]?) :=
  iter_function_no_mutation [[[2], [0, 2, 3], [0, 1, 2, 3], [0]]]
    [0, 0, 0, 0, 0, 0, 0, 0, -1, 2, 3, -4, 1, 1/2, 6, 1/2, -11] 0
    (generate_reactions_vector [[2], [0, 2, 3], [0, 1, 2, 3], [0]]).2
    (by simp)

end Lassim
